import Mathlib

/-!
Verification development for the enyo property-path resolver
(`enyo.getPath` / `enyo.setPath`), the callback helpers (`enyo.bind` /
`enyo.bindSafely`) and the binding lifecycle mixin (`enyo.BindingSupport`).

The JavaScript object graph is shallowly embedded as a heap of plain data
objects addressed by natural numbers.  JavaScript values are modelled by
`JSVal`; function values are collapsed into the single opaque constructor
`JSVal.fn`, used to mark the presence of the duck-typed `notify` hook.
Invoking any data value as a function raises a TypeError in JavaScript; such
non-normal completions are modelled by `Option.none` results.  The `notify`
hook itself is modelled as pure event emission (a `NotifyEvent` record is
appended to the result's event list); arbitrary observer side effects are
outside the model.  Built-in properties of primitives (such as `length` on
strings) are not modelled: a property read on a primitive yields `undefined`.
-/

/-- A JavaScript value.  Objects are heap references; `fn` is an opaque
function value (used in the model to mark the `notify` capability and to
state the function/non-function distinction needed by `enyo.bind`). -/
inductive JSVal where
  | undef
  | null
  | bool (b : Bool)
  | num (n : Int)
  | str (s : String)
  | ref (a : Nat)
  | fn
deriving Repr, DecidableEq

/-- JavaScript truthiness of a value (`undefined`, `null`, `false`, `0` and
the empty string are falsy; objects and functions are truthy). -/
def JSVal.truthy : JSVal → Bool
  | .undef => false
  | .null => false
  | .bool b => b
  | .num n => if n = 0 then false else true
  | .str s => if s = "" then false else true
  | .ref _ => true
  | .fn => true

/-- A plain JavaScript object: an ordered association list from property
names to values (JavaScript objects have at most one entry per key; the
well-formedness predicate `Obj.wf` records this). -/
structure Obj where
  fields : List (String × JSVal)
deriving Repr, DecidableEq

/-- The heap: objects addressed by naturals, plus the next fresh address. -/
structure Heap where
  objs : List (Nat × Obj)
  nextAddr : Nat
deriving Repr, DecidableEq

/-- Value of a property on an object (`undefined` when absent). -/
def Obj.fieldVal (o : Obj) (k : String) : JSVal :=
  match o.fields.find? (fun p => p.1 == k) with
  | some p => p.2
  | Option.none => JSVal.undef

/-- Whether an object has an own property named `k`. -/
def Obj.hasKey (o : Obj) (k : String) : Bool :=
  o.fields.any (fun p => p.1 == k)

/-- `o[k] = v`: replace the entry for `k`, or append one. -/
def Obj.setField (o : Obj) (k : String) (v : JSVal) : Obj :=
  if o.hasKey k then
    ⟨o.fields.map (fun p => if p.1 == k then (k, v) else p)⟩
  else ⟨o.fields ++ [(k, v)]⟩

/-- Object stored at address `a` (the empty object for a dangling address;
well-formed heaps have no dangling references). -/
def Heap.getObj (h : Heap) (a : Nat) : Obj :=
  match h.objs.find? (fun p => p.1 == a) with
  | some p => p.2
  | Option.none => ⟨[]⟩

/-- Whether the heap has an object at address `a`. -/
def Heap.hasAddr (h : Heap) (a : Nat) : Bool :=
  h.objs.any (fun p => p.1 == a)

/-- Write property `k` of the object at `a` (no-op on a dangling address). -/
def Heap.writeField (h : Heap) (a : Nat) (k : String) (v : JSVal) : Heap :=
  if h.hasAddr a then
    ⟨h.objs.map (fun p => if p.1 == a then (a, p.2.setField k v) else p), h.nextAddr⟩
  else h

/-- Allocate a fresh empty object (`{}`), as `setPath` does when
auto-vivifying a missing intermediate. -/
def Heap.allocObj (h : Heap) : Heap :=
  ⟨h.objs ++ [(h.nextAddr, ⟨[]⟩)], h.nextAddr + 1⟩

/-- `v[k]` for an arbitrary value: field lookup on objects, `undefined` on
primitives (built-in properties of primitives are not modelled). -/
def propRead (h : Heap) (v : JSVal) (k : String) : JSVal :=
  match v with
  | JSVal.ref a => (h.getObj a).fieldVal k
  | _ => JSVal.undef

/-- `v[k]` where reading from `null`/`undefined` raises a TypeError,
modelled by `Option.none`. -/
def propReadE (h : Heap) (v : JSVal) (k : String) : Option JSVal :=
  match v with
  | JSVal.null => Option.none
  | JSVal.undef => Option.none
  | _ => some (propRead h v k)

/-- Keys in an object are distinct (JavaScript objects cannot repeat a key). -/
def Obj.wf (o : Obj) : Prop :=
  (o.fields.map Prod.fst).Nodup

/-- Heap well-formedness: addresses are distinct, below `nextAddr`, and all
objects are well-formed. -/
def Heap.wf (h : Heap) : Prop :=
  (h.objs.map Prod.fst).Nodup ∧ (∀ p ∈ h.objs, p.1 < h.nextAddr) ∧ ∀ p ∈ h.objs, p.2.wf

/-- A plain-data object: no property named `get`, `set` or `_getters` (those
would be treated as resolver capabilities by `getPath`/`setPath` and, holding
data, make the source throw when invoked), and a property named `notify`
exactly when it holds the opaque function value marking the notify hook. -/
def Obj.plain (o : Obj) : Prop :=
  (∀ p ∈ o.fields, p.1 ≠ "get" ∧ p.1 ≠ "set" ∧ p.1 ≠ "_getters") ∧
  (∀ p ∈ o.fields, p.2 = JSVal.fn → p.1 = "notify") ∧
  (∀ p ∈ o.fields, p.1 = "notify" → p.2 = JSVal.fn)

/-- All heap objects are plain-data objects. -/
def Heap.plain (h : Heap) : Prop :=
  ∀ p ∈ h.objs, p.2.plain

/-- The leading-dot strip in `getPath`/`setPath`:
`if (path[0] == '.') path = path.replace(/^\.+/, '')`. -/
def stripDots (s : String) : String :=
  String.mk (s.toList.dropWhile (fun c => c == '.'))

/-- `path.split('.')` on character lists (accumulator holds the current
segment reversed), matching JavaScript `String.prototype.split`. -/
def splitSegsAux : List Char → List Char → List String
  | [], acc => [String.mk acc.reverse]
  | c :: cs, acc =>
      if c == '.' then String.mk acc.reverse :: splitSegsAux cs []
      else splitSegsAux cs (c :: acc)

/-- `path.split('.')`. -/
def splitSegs (s : String) : List String :=
  splitSegsAux s.toList []

/-- One step of the `getPath` walk on the current value `nx`.  Mirrors the
three branches of the source: the `_getters` branch and the `get`-delegation
branch would invoke a data value (TypeError, `Option.none` here); the plain
branch is an attribute lookup.  `tv` is the receiver (`this`), compared by
the source in `next.get && next !== this && next.get !== getPath`. -/
def getStep (h : Heap) (tv : JSVal) (nx : JSVal) (part : String) : Option JSVal :=
  match propReadE h nx "_getters" with
  | Option.none => Option.none
  | some gs =>
      let getter := propRead h gs part
      if gs.truthy && getter.truthy && !(propRead h getter "generated").truthy then
        Option.none
      else if (propRead h nx "get").truthy && !(nx == tv) then
        Option.none
      else some (propRead h nx part)

/-- The `do … while (next && (part = parts.shift()))` loop of `getPath`:
the body always runs once; the walk continues only while the current value
is truthy and the next shifted segment is a truthy (non-empty) string. -/
def getLoop (h : Heap) (tv : JSVal) (nx : JSVal) (part : String) :
    List String → Option JSVal
  | [] => getStep h tv nx part
  | p :: ps =>
      match getStep h tv nx part with
      | Option.none => Option.none
      | some n1 =>
          if n1.truthy then
            if p = "" then some n1 else getLoop h tv n1 p ps
          else some n1

/-- The walk entered on the segment list produced by `split('.')` (which is
never empty for a non-empty string; the `[]` case is unreachable glue). -/
def getLoopSegs (h : Heap) (tv : JSVal) (nx : JSVal) : List String → Option JSVal
  | [] => some JSVal.undef
  | p :: ps => getLoop h tv nx p ps

/-- `enyo.getPath` with an explicit receiver `root` (the source defaults the
receiver to the global object; all claims use an explicit receiver).  A
falsy path that is neither `null` nor `undefined` is returned unchanged; a
`null`/`undefined` path makes `path[0]` throw; a truthy non-string path
makes `path.split` throw.  `Option.none` models a thrown error. -/
def getPath (h : Heap) (root : JSVal) (path : JSVal) : Option JSVal :=
  match path with
  | JSVal.str s0 =>
      if s0 = "" then some (JSVal.str "")
      else
        let s := stripDots s0
        if s = "" then some JSVal.undef
        else getLoopSegs h root root (splitSegs s)
  | JSVal.undef => Option.none
  | JSVal.null => Option.none
  | JSVal.num n => if n = 0 then some (JSVal.num 0) else Option.none
  | JSVal.bool b => if b then Option.none else some (JSVal.bool false)
  | JSVal.ref _ => Option.none
  | JSVal.fn => Option.none

/-- A `notify(part, was, is, opts)` invocation recorded by the model. -/
structure NotifyEvent where
  target : JSVal
  part : String
  was : JSVal
  now : JSVal
deriving Repr, DecidableEq

/-- Result of a completed `setPath` call: the updated heap, the notify
invocations it performed (in order), and its return value (always the
original root). -/
structure SetResult where
  heap : Heap
  events : List NotifyEvent
  ret : JSVal
deriving Repr, DecidableEq

/-- An options hash passed as the third argument of `setPath`.  Each field
is `some v` when the key is present with value `v`.  The comparator is an
arbitrary binary predicate (the source treats its result truthily). -/
structure OptsHash where
  createOpt : Option JSVal := Option.none
  silentOpt : Option JSVal := Option.none
  forceOpt : Option JSVal := Option.none
  comparatorOpt : Option (JSVal → JSVal → Bool) := Option.none

/-- The third argument of `setPath`: an object (`typeof opts == 'object'`,
merged over the defaults by `enyo.mixin`; `null` is the empty hash) or any
other value, which the source takes positionally as the `force` flag. -/
inductive SetOpts where
  | hash (o : OptsHash)
  | prim (v : JSVal)

/-- Effective option value after `enyo.mixin({}, [defaults, opts])`: a key
present with value `undefined` is skipped by `mixin` (its `empty[key] !== val`
guard), so it falls back to the default. -/
def effOpt (o : Option JSVal) (d : JSVal) : JSVal :=
  match o with
  | some v => if v = JSVal.undef then d else v
  | Option.none => d

/-- The effective `force` flag: `if (opts.force) force = true` for an options
hash, otherwise the positional third argument itself, used truthily. -/
def SetOpts.forceB : SetOpts → Bool
  | .hash o => (effOpt o.forceOpt (JSVal.bool false)).truthy
  | .prim v => v.truthy

/-- The effective `silent` flag (default `false`; positional form leaves the
default in place). -/
def SetOpts.silentB : SetOpts → Bool
  | .hash o => (effOpt o.silentOpt (JSVal.bool false)).truthy
  | .prim _ => false

/-- The effective `create` flag (default `true`; positional form leaves the
default in place). -/
def SetOpts.createB : SetOpts → Bool
  | .hash o => (effOpt o.createOpt (JSVal.bool true)).truthy
  | .prim _ => true

/-- The effective comparator (only an options hash can carry one). -/
def SetOpts.comp : SetOpts → Option (JSVal → JSVal → Bool)
  | .hash o => o.comparatorOpt
  | .prim _ => Option.none

/-- Outcome of the `setPath` walk loop: `bail` is the `if (!next) return
base` exit (no assignment), `finish` carries the node, final segment and
previously read value for the terminal assignment. -/
inductive SetStage where
  | bail
  | finish (nx : JSVal) (part : String) (was : JSVal)
deriving Repr, DecidableEq

/-- One non-terminal step of the `setPath` walk:
`next = next[part] || (create && (next[part] = {}))`.  A truthy existing
value is kept; otherwise with `create` a fresh `{}` is allocated and stored
(a store onto a primitive is silently ignored in sloppy mode, but the fresh
object still becomes the walk value); without `create` the walk value is the
falsy `create` flag itself, modelled as `false` (it is only ever tested for
truthiness before `return base`). -/
def setStep (h : Heap) (nx : JSVal) (part : String) (create : Bool) :
    Option (Heap × JSVal) :=
  match propReadE h nx part with
  | Option.none => Option.none
  | some v =>
      if v.truthy then some (h, v)
      else if create then
        match nx with
        | JSVal.ref a =>
            some ((h.allocObj).writeField a part (JSVal.ref h.nextAddr),
                  JSVal.ref h.nextAddr)
        | _ => some (h.allocObj, JSVal.ref h.nextAddr)
      else some (h, JSVal.bool false)

/-- The `do … while (next && parts.length && (part = parts.shift()))` loop
of `setPath`.  On the last segment the previous value is read (through a
`get` override when present — holding data, that would throw); on earlier
segments delegation to a custom `set`/`get` on a non-root node would invoke
a data value (TypeError), else the plain step runs.  A falsy shifted segment
(the empty string) exits the loop with `was` still `undefined`. -/
def setLoop (h : Heap) (base : JSVal) (create : Bool) (nx : JSVal)
    (part : String) : List String → Option (Heap × SetStage)
  | [] =>
      match propReadE h nx "get" with
      | Option.none => Option.none
      | some g =>
          if g.truthy then Option.none
          else
            let was := propRead h nx part
            if nx.truthy then some (h, SetStage.finish nx part was)
            else some (h, SetStage.bail)
  | p :: ps =>
      if !(nx == base) && (propRead h nx "set").truthy then Option.none
      else if !(nx == base) && (propRead h nx "get").truthy then Option.none
      else
        match setStep h nx part create with
        | Option.none => Option.none
        | some (h1, n1) =>
            if n1.truthy then
              if p = "" then some (h1, SetStage.finish n1 "" JSVal.undef)
              else setLoop h1 base create n1 p ps
            else some (h1, SetStage.bail)

/-- The walk entered on the segment list produced by `split('.')` (never
empty for a non-empty string; the `[]` case is unreachable glue and behaves
like the `!next` bail). -/
def setLoopSegs (h : Heap) (base : JSVal) (cr : Bool) (nx : JSVal) :
    List String → Option (Heap × SetStage)
  | [] => some (h, SetStage.bail)
  | p :: ps => setLoop h base cr nx p ps

/-- `enyo.setPath` with an explicit receiver `root`.  A falsy path returns
the receiver unchanged.  After the walk, the terminal assignment happens
(delegation to a custom `set` on a non-root node would invoke data: thrown);
then `notify(part, was, is, opts)` fires when the node's `notify` property
is truthy, the call is not silenced, and the value changed (or `force`, or
the comparator approves).  A truthy non-function `notify` value would itself
throw when invoked.  The call always returns the original root. -/
def setPath (h : Heap) (root : JSVal) (path : JSVal) (v : JSVal)
    (opts : SetOpts) : Option SetResult :=
  if !path.truthy then some ⟨h, [], root⟩
  else
    match path with
    | JSVal.str s0 =>
        let s := stripDots s0
        if s = "" then some ⟨h, [], root⟩
        else
          match setLoopSegs h root opts.createB root (splitSegs s) with
          | Option.none => Option.none
          | some (h1, SetStage.bail) => some ⟨h1, [], root⟩
          | some (h1, SetStage.finish nx part was) =>
              if !(nx == root) && (propRead h1 nx "set").truthy then
                Option.none
              else
                let h2 := match nx with
                          | JSVal.ref a => h1.writeField a part v
                          | _ => h1
                let nv := propRead h2 nx "notify"
                let changed : Bool :=
                  opts.forceB || (if was = v then false else true) ||
                    (match opts.comp with
                     | some c => c was v
                     | Option.none => false)
                if nv.truthy && !opts.silentB && changed then
                  if nv = JSVal.fn then
                    some ⟨h2, [⟨nx, part, was, v⟩], root⟩
                  else Option.none
                else some ⟨h2, [], root⟩
    | _ => Option.none

/-- Outcome of `enyo.bind` / `enyo.bindSafely`: either a bound closure is
returned, or the call throws synchronously. -/
inductive BindResult where
  | closure
  | thrown
deriving Repr, DecidableEq

/-- `enyo.bind(scope, method)`.  A falsy `method` shifts the arguments
(`method = scope; scope = null`), after which `scope = scope || enyo.global`
(the global object is modelled as carrying no tracked properties).  A string
`method` is looked up on the scope and must resolve to a truthy value, else
the source throws; a non-function final `method` also throws. -/
def enyoBind (h : Heap) (scope0 : JSVal) (method0 : JSVal) : BindResult :=
  let method1 := if method0.truthy then method0 else scope0
  let scope1 := if method0.truthy then scope0 else JSVal.null
  match method1 with
  | JSVal.str s =>
      let v := if scope1.truthy then propRead h scope1 s else JSVal.undef
      if v.truthy then
        if v = JSVal.fn then BindResult.closure else BindResult.thrown
      else BindResult.thrown
  | JSVal.fn => BindResult.closure
  | _ => BindResult.thrown

/-- `enyo.bindSafely(scope, method)`: like `enyo.bind` but with no argument
shifting and no default scope, so a string `method` is read directly off the
given scope (a `null`/`undefined` scope makes that read throw). -/
def enyoBindSafely (h : Heap) (scope : JSVal) (method : JSVal) : BindResult :=
  match method with
  | JSVal.str s =>
      match propReadE h scope s with
      | Option.none => BindResult.thrown
      | some v =>
          if v.truthy then
            if v = JSVal.fn then BindResult.closure else BindResult.thrown
          else BindResult.thrown
  | JSVal.fn => BindResult.closure
  | _ => BindResult.thrown

/-- Modelled from the spec: an `enyo.Binding` instance (the `enyo.Binding`
kind itself is not among the sources; only its owner-side lifecycle in
`enyo.BindingSupport` is).  The model records which declaration descriptor
the instance was built from and whether it has been destroyed. -/
structure Binding where
  descriptor : Nat
  destroyed : Bool
deriving Repr, DecidableEq

/-- An entry of an owner's `bindings` array: a queued raw declaration hash
(identified by its descriptor) or a live `Binding` instance. -/
inductive BEntry where
  | raw (d : Nat)
  | live (b : Binding)
deriving Repr, DecidableEq

/-- The declaration descriptor underlying an entry. -/
def BEntry.desc : BEntry → Nat
  | .raw d => d
  | .live b => b.descriptor

/-- The `BindingSupport` state of an owner: its `bindings` array (`none`
models the `null` it is set to on destruction) and the
`_bindingSupportInitialized` flag. -/
structure BOwner where
  bindings : Option (List BEntry)
  inited : Bool
deriving Repr, DecidableEq

/-- `enyo.BindingSupport.binding(...)` reduced to the descriptor `d` of the
merged declaration hash: when the owner is live a `Binding` is instantiated
and appended (and returned), otherwise the raw hash is queued (and the owner
returned).  `this.bindings || (this.bindings = [])` turns a `null` array
into a fresh one first. -/
def BOwner.bindingOp (o : BOwner) (d : Nat) : BOwner × Option Binding :=
  let bs := match o.bindings with
            | some l => l
            | Option.none => []
  if o.inited then
    ({ o with bindings := some (bs ++ [BEntry.live ⟨d, false⟩]) }, some ⟨d, false⟩)
  else ({ o with bindings := some (bs ++ [BEntry.raw d]) }, Option.none)

/-- `enyo.BindingSupport.constructed`: flips the live flag, swaps in a fresh
`bindings` array (the old array, when non-null, is truthy even when empty,
and `(this.bindings = [])` is truthy too), then re-declares every queued
entry through `binding` in order. -/
def BOwner.constructedOp (o : BOwner) : BOwner :=
  let o1 : BOwner := { o with inited := true }
  match o.bindings with
  | Option.none => o1
  | some queued =>
      queued.foldl (fun acc e => (acc.bindingOp e.desc).1)
        { o1 with bindings := some [] }

/-- Remove the first occurrence of an entry (`enyo.remove`: `indexOf` with
strict equality, then `splice`). -/
def removeFirst : List BEntry → BEntry → List BEntry
  | [], _ => []
  | x :: xs, e => if x = e then xs else x :: removeFirst xs e

/-- Iteration of `clearBindings` over a copy (`slice()`) of the array, each
entry's `destroy()` in turn.  Modelled from the spec: `enyo.Binding#destroy`
marks the binding destroyed and removes it from its owner's `bindings` array
(spec 4.2: a destroyed binding is automatically removed from its owner and
deregisters its observation).  Calling `destroy` on a raw declaration hash
would invoke `undefined` (TypeError), modelled by `Option.none`.  The list
of destroyed bindings is accumulated in `log`. -/
def destroySeq (o : BOwner) (log : List Binding) :
    List BEntry → Option (BOwner × List Binding)
  | [] => some (o, log)
  | BEntry.raw _ :: _ => Option.none
  | BEntry.live b :: rest =>
      let o1 : BOwner :=
        { o with bindings := o.bindings.map (fun l => removeFirst l (BEntry.live b)) }
      destroySeq o1 (log ++ [⟨b.descriptor, true⟩]) rest

/-- `enyo.BindingSupport.clearBindings()` with no subset argument: iterates
over `this.bindings.slice()`; when `bindings` is `null` the source calls
`forEach` on `null` (TypeError). -/
def BOwner.clearBindingsOp (o : BOwner) : Option (BOwner × List Binding) :=
  match o.bindings with
  | Option.none => Option.none
  | some bs => destroySeq o [] bs

/-- `enyo.BindingSupport.destroy`: after the superclass call (identity on
the binding state), `this.bindings && this.bindings.length &&
this.clearBindings()` destroys every remaining binding, then
`this.bindings = null`. -/
def BOwner.destroyOp (o : BOwner) : Option (BOwner × List Binding) :=
  match o.bindings with
  | some bs =>
      if bs.length ≠ 0 then
        match o.clearBindingsOp with
        | Option.none => Option.none
        | some (o1, log) => some ({ o1 with bindings := Option.none }, log)
      else some ({ o with bindings := Option.none }, [])
  | Option.none => some ({ o with bindings := Option.none }, [])

/-- Plain forward walk used to state hypotheses about a path's values on a
heap: follow `propRead` while each current value is truthy (`Option.none`
when a falsy value would have to be stepped through). -/
def stepsTo (h : Heap) : JSVal → List String → Option JSVal
  | v, [] => some v
  | v, p :: ps => if v.truthy then stepsTo h (propRead h v p) ps else Option.none

/-- Walk used to state that every intermediate value of a path is an
object: follow `propRead`, requiring a heap reference at every step. -/
def refChain (h : Heap) : JSVal → List String → Option JSVal
  | v, [] => some v
  | v, p :: ps =>
      match propRead h v p with
      | JSVal.ref a => refChain h (JSVal.ref a) ps
      | _ => Option.none

instance (o : Obj) : Decidable o.wf := by
  unfold Obj.wf
  infer_instance

instance (h : Heap) : Decidable h.wf := by
  unfold Heap.wf
  exact instDecidableAnd

instance (o : Obj) : Decidable o.plain := by
  unfold Obj.plain
  exact instDecidableAnd

instance (h : Heap) : Decidable h.plain := by
  unfold Heap.plain
  infer_instance

/-- The empty root object `O = {}` at address 0. -/
def emptyRootHeap : Heap := ⟨[(0, ⟨[]⟩)], 1⟩

/-- Concrete heap refuting C5: `O = {a: 0}` at address 0. -/
def c5CexHeap : Heap := ⟨[(0, ⟨[("a", JSVal.num 0)]⟩)], 1⟩

/-- Self-referential heap refuting C2: `O = {a: O, notify: fn}` at address
0 and `u = {notify: fn}` at address 1. -/
def c2CexHeap : Heap := ⟨[(0, ⟨[("a", JSVal.ref 0), ("notify", JSVal.fn)]⟩),
                          (1, ⟨[("notify", JSVal.fn)]⟩)], 2⟩

/-- Heap after the first `assign(O, "a.a", u)` on `c2CexHeap`. -/
def c2CexHeap1 : Heap := ⟨[(0, ⟨[("a", JSVal.ref 1), ("notify", JSVal.fn)]⟩),
                           (1, ⟨[("notify", JSVal.fn)]⟩)], 2⟩

/-- Heap after the second `assign(O, "a.a", u)`: `u.a` now points at `u`. -/
def c2CexHeap2 : Heap := ⟨[(0, ⟨[("a", JSVal.ref 1), ("notify", JSVal.fn)]⟩),
                           (1, ⟨[("notify", JSVal.fn), ("a", JSVal.ref 1)]⟩)], 2⟩

/-- Heap for the C1 witness: `O = {a: {}}` — segment `b` of `"a.b.c"` is
absent on the object at `O.a`. -/
def c1WitHeap : Heap := ⟨[(0, ⟨[("a", JSVal.ref 1)]⟩), (1, ⟨[]⟩)], 2⟩

/-- Heap for the C2 witness: `O = {x: u}`, `u = {notify, y: 1}`. -/
def c2WitHeap : Heap := ⟨[(0, ⟨[("x", JSVal.ref 1)]⟩),
                          (1, ⟨[("notify", JSVal.fn), ("y", JSVal.num 1)]⟩)], 2⟩

/-- Heap for the C8 witness: the scope has `m = 5`, a non-function. -/
def c8WitHeap : Heap := ⟨[(0, ⟨[("m", JSVal.num 5)]⟩)], 1⟩

lemma truthy_ne_null {v : JSVal} (hv : v.truthy = true) : v ≠ JSVal.null := by
  intro h
  subst h
  simp [JSVal.truthy] at hv

lemma truthy_ne_undef {v : JSVal} (hv : v.truthy = true) : v ≠ JSVal.undef := by
  intro h
  subst h
  simp [JSVal.truthy] at hv

lemma propReadE_eq_some {h : Heap} {v : JSVal} (k : String) (hv : v.truthy = true) :
    propReadE h v k = some (propRead h v k) := by
  cases v <;> simp [JSVal.truthy] at hv <;> rfl

lemma find?_map_set_self {α β : Type} [BEq α] [LawfulBEq α]
    (l : List (α × β)) (a : α) (f : β → β) :
    (l.map (fun p => if p.1 == a then (a, f p.2) else p)).find? (fun p => p.1 == a)
      = (l.find? (fun p => p.1 == a)).map (fun p => (a, f p.2)) := by
  induction l with
  | nil => rfl
  | cons q l ih =>
      by_cases hq : q.1 = a
      · simp [List.find?_cons, hq, ih]
      · simp [List.find?_cons, hq, ih]

lemma find?_map_set_ne {α β : Type} [BEq α] [LawfulBEq α]
    (l : List (α × β)) (a b : α) (f : β → β) (hba : b ≠ a) :
    (l.map (fun p => if p.1 == a then (a, f p.2) else p)).find? (fun p => p.1 == b)
      = l.find? (fun p => p.1 == b) := by
  have hab : ¬ a = b := by
    intro he
    exact hba he.symm
  induction l with
  | nil => rfl
  | cons q l ih =>
      by_cases hq : q.1 = a
      · have hqb : ¬ q.1 = b := by
          rw [hq]
          exact hab
        simp [List.find?_cons, hq, hqb, hab, ih]
      · have h1 : (if (q.1 == a) = true then ((a, f q.2) : α × β) else q) = q := by
          simp [hq]
        by_cases hqb : q.1 = b
        · rw [List.map_cons, h1, List.find?_cons, List.find?_cons]
          simp [hqb]
        · rw [List.map_cons, h1, List.find?_cons, List.find?_cons]
          simp [hqb, ih]

lemma find?_eq_of_nodup {α β : Type} [BEq α] [LawfulBEq α]
    {l : List (α × β)} {p : α × β} {k : α}
    (hn : (l.map Prod.fst).Nodup) (hp : p ∈ l) (hk : p.1 = k) :
    l.find? (fun q => q.1 == k) = some p := by
  induction l with
  | nil => cases hp
  | cons q l ih =>
      rw [List.map_cons] at hn
      have hn2 := List.nodup_cons.mp hn
      rcases List.mem_cons.mp hp with he | hm
      · subst he
        simp [List.find?_cons, hk]
      · by_cases hq : q.1 = k
        · exfalso
          apply hn2.1
          rw [hq, ← hk]
          exact List.mem_map_of_mem Prod.fst hm
        · simp only [List.find?_cons]
          have : (q.1 == k) = false := by simp [hq]
          rw [this]
          exact ih hn2.2 hm

lemma fieldVal_of_hasKey_false {o : Obj} {k : String} (hk : o.hasKey k = false) :
    o.fieldVal k = JSVal.undef := by
  unfold Obj.hasKey at hk
  unfold Obj.fieldVal
  have hnone : o.fields.find? (fun p => p.1 == k) = Option.none := by
    apply List.find?_eq_none.mpr
    intro x hx
    have := List.any_eq_false.mp hk x hx
    simpa using this
  rw [hnone]

lemma fieldVal_setField_self (o : Obj) (k : String) (v : JSVal) :
    (o.setField k v).fieldVal k = v := by
  unfold Obj.setField
  by_cases hk : o.hasKey k
  · rw [if_pos hk]
    unfold Obj.fieldVal
    have h1 := find?_map_set_self o.fields k (fun _ => v)
    simp only at h1
    rw [h1]
    unfold Obj.hasKey at hk
    obtain ⟨x, hx, hxk⟩ := List.any_eq_true.mp hk
    have : (o.fields.find? (fun p => p.1 == k)).isSome := by
      apply List.find?_isSome.mpr
      exact ⟨x, hx, hxk⟩
    obtain ⟨p, hp⟩ := Option.isSome_iff_exists.mp this
    rw [hp]
    rfl
  · rw [if_neg hk]
    unfold Obj.fieldVal
    have hnone : o.fields.find? (fun p => p.1 == k) = Option.none := by
      apply List.find?_eq_none.mpr
      intro x hx
      have := List.any_eq_false.mp (Bool.of_not_eq_true hk) x hx
      simpa using this
    rw [List.find?_append, hnone]
    simp [List.find?_cons]

lemma fieldVal_setField_ne (o : Obj) (k k' : String) (v : JSVal) (hne : k' ≠ k) :
    (o.setField k v).fieldVal k' = o.fieldVal k' := by
  unfold Obj.setField
  by_cases hk : o.hasKey k
  · rw [if_pos hk]
    unfold Obj.fieldVal
    have h1 := find?_map_set_ne o.fields k k' (fun _ => v) hne
    simp only at h1
    rw [h1]
  · rw [if_neg hk]
    unfold Obj.fieldVal
    rw [List.find?_append]
    have h2 : ([(k, v)].find? (fun p => p.1 == k')) = Option.none := by
      have hkk : ¬ k = k' := by
        intro he
        exact hne he.symm
      simp [List.find?_cons, hkk]
    rw [h2]
    cases o.fields.find? (fun p => p.1 == k') <;> rfl

lemma hasKey_setField_self (o : Obj) (k : String) (v : JSVal) :
    (o.setField k v).hasKey k = true := by
  unfold Obj.setField
  by_cases hk : o.hasKey k
  · rw [if_pos hk]
    unfold Obj.hasKey at hk ⊢
    obtain ⟨x, hx, hxk⟩ := List.any_eq_true.mp hk
    apply List.any_eq_true.mpr
    refine ⟨if x.1 == k then (k, v) else x, List.mem_map_of_mem _ hx, ?_⟩
    rw [hxk]
    simp
  · rw [if_neg hk]
    unfold Obj.hasKey
    apply List.any_eq_true.mpr
    exact ⟨(k, v), by simp, by simp⟩

lemma wf_setField {o : Obj} (k : String) (v : JSVal) (hw : o.wf) :
    (o.setField k v).wf := by
  unfold Obj.setField
  by_cases hk : o.hasKey k
  · rw [if_pos hk]
    unfold Obj.wf at hw ⊢
    have : ((o.fields.map (fun p => if p.1 == k then (k, v) else p)).map Prod.fst)
        = o.fields.map Prod.fst := by
      rw [List.map_map]
      apply List.map_congr_left
      intro p _
      by_cases hp : p.1 = k
      · simp [hp]
      · simp [hp]
    rw [this]
    exact hw
  · rw [if_neg hk]
    unfold Obj.wf at hw ⊢
    rw [List.map_append]
    apply List.Nodup.append hw (by simp)
    intro x hx hy
    simp at hy
    subst hy
    apply hk
    unfold Obj.hasKey
    apply List.any_eq_true.mpr
    obtain ⟨p, hp, hpk⟩ := List.mem_map.mp hx
    exact ⟨p, hp, by simp [hpk]⟩

lemma map_fix {α : Type} (f : α → α) :
    ∀ l : List α, (∀ x ∈ l, f x = x) → l.map f = l := by
  intro l
  induction l with
  | nil => intro _; rfl
  | cons q l ih =>
      intro hf
      rw [List.map_cons, hf q (by simp), ih]
      intro x hx
      exact hf x (by simp [hx])

lemma setField_id {o : Obj} {k : String} {v : JSVal} (hw : o.wf)
    (hk : o.hasKey k = true) (hv : o.fieldVal k = v) :
    o.setField k v = o := by
  unfold Obj.setField
  rw [if_pos hk]
  have hmap : o.fields.map (fun p => if p.1 == k then (k, v) else p) = o.fields := by
    apply map_fix
    intro p hp
    by_cases hpk : p.1 = k
    · have hfind := find?_eq_of_nodup hw hp hpk
      unfold Obj.fieldVal at hv
      rw [hfind] at hv
      have : p = (k, v) := by
        cases p with
        | mk p1 p2 =>
            simp at hv hpk
            rw [hpk, hv]
      simp [hpk, ← this]
    · simp [hpk]
  rw [hmap]

lemma fieldVal_of_forall_ne {o : Obj} {k : String}
    (hk : ∀ p ∈ o.fields, ¬ p.1 = k) : o.fieldVal k = JSVal.undef := by
  unfold Obj.fieldVal
  have hnone : o.fields.find? (fun p => p.1 == k) = Option.none := by
    apply List.find?_eq_none.mpr
    intro x hx
    simp [hk x hx]
  rw [hnone]

lemma getObj_not_hasAddr {h : Heap} {a : Nat} (ha : h.hasAddr a = false) :
    h.getObj a = ⟨[]⟩ := by
  unfold Heap.getObj
  have hnone : h.objs.find? (fun p => p.1 == a) = Option.none := by
    apply List.find?_eq_none.mpr
    intro x hx
    have := List.any_eq_false.mp ha x hx
    simpa using this
  rw [hnone]

lemma getObj_writeField_self {h : Heap} {a : Nat} (k : String) (v : JSVal)
    (ha : h.hasAddr a = true) :
    (h.writeField a k v).getObj a = (h.getObj a).setField k v := by
  unfold Heap.writeField
  rw [if_pos ha]
  unfold Heap.getObj
  have h1 := find?_map_set_self h.objs a (fun o => o.setField k v)
  simp only at h1
  rw [show (Heap.mk (h.objs.map (fun p => if p.1 == a then (a, p.2.setField k v) else p))
      h.nextAddr).objs = h.objs.map (fun p => if p.1 == a then (a, p.2.setField k v) else p)
    from rfl]
  rw [h1]
  unfold Heap.hasAddr at ha
  obtain ⟨x, hx, hxk⟩ := List.any_eq_true.mp ha
  have hs : (h.objs.find? (fun p => p.1 == a)).isSome :=
    List.find?_isSome.mpr ⟨x, hx, hxk⟩
  obtain ⟨p, hp⟩ := Option.isSome_iff_exists.mp hs
  rw [hp]
  rfl

lemma getObj_writeField_ne {h : Heap} {a b : Nat} (k : String) (v : JSVal)
    (hba : b ≠ a) :
    (h.writeField a k v).getObj b = h.getObj b := by
  unfold Heap.writeField
  by_cases ha : h.hasAddr a
  · rw [if_pos ha]
    unfold Heap.getObj
    have h1 := find?_map_set_ne h.objs a b (fun o => o.setField k v) hba
    simp only at h1
    rw [show (Heap.mk (h.objs.map (fun p => if p.1 == a then (a, p.2.setField k v) else p))
        h.nextAddr).objs = h.objs.map (fun p => if p.1 == a then (a, p.2.setField k v) else p)
      from rfl]
    rw [h1]
  · rw [if_neg ha]

lemma propRead_writeField_ne (h : Heap) (a : Nat) (k k' : String) (v w : JSVal)
    (hne : k' ≠ k) :
    propRead (h.writeField a k v) w k' = propRead h w k' := by
  cases w with
  | ref b =>
      by_cases hb : b = a
      · subst hb
        by_cases ha : h.hasAddr b
        · simp only [propRead]
          rw [getObj_writeField_self k v ha, fieldVal_setField_ne _ _ _ _ hne]
        · unfold Heap.writeField
          rw [if_neg ha]
      · simp only [propRead]
        rw [getObj_writeField_ne k v hb]
  | undef => rfl
  | null => rfl
  | bool b => rfl
  | num n => rfl
  | str s => rfl
  | fn => rfl

lemma writeField_id {h : Heap} {a : Nat} {k : String} {v : JSVal}
    (hw : h.wf) (hk : (h.getObj a).hasKey k = true)
    (hv : (h.getObj a).fieldVal k = v) :
    h.writeField a k v = h := by
  obtain ⟨hnd, hlt, hobj⟩ := hw
  unfold Heap.writeField
  by_cases ha : h.hasAddr a
  · rw [if_pos ha]
    have hmap : h.objs.map (fun p => if p.1 == a then (a, p.2.setField k v) else p)
        = h.objs := by
      apply map_fix
      intro p hp
      by_cases hpa : p.1 = a
      · have hfind := find?_eq_of_nodup hnd hp hpa
        have hg : h.getObj a = p.2 := by
          unfold Heap.getObj
          rw [hfind]
        rw [hg] at hk hv
        have hid : p.2.setField k v = p.2 := setField_id (hobj p hp) hk hv
        cases p with
        | mk p1 p2 =>
            simp only at hpa
            subst hpa
            simp [hid]
      · simp [hpa]
    rw [hmap]
  · rw [if_neg ha]

lemma wf_writeField {h : Heap} (a : Nat) (k : String) (v : JSVal) (hw : h.wf) :
    (h.writeField a k v).wf := by
  obtain ⟨hnd, hlt, hobj⟩ := hw
  unfold Heap.writeField
  by_cases ha : h.hasAddr a
  · rw [if_pos ha]
    have hkeys : ((h.objs.map (fun p => if p.1 == a then (a, p.2.setField k v) else p)).map
        Prod.fst) = h.objs.map Prod.fst := by
      rw [List.map_map]
      apply List.map_congr_left
      intro p _
      by_cases hp : p.1 = a
      · simp [hp]
      · simp [hp]
    refine ⟨?_, ?_, ?_⟩
    · rw [show (Heap.mk (h.objs.map (fun p => if p.1 == a then (a, p.2.setField k v) else p))
          h.nextAddr).objs = h.objs.map (fun p => if p.1 == a then (a, p.2.setField k v) else p)
        from rfl]
      rw [hkeys]
      exact hnd
    · intro p hp
      obtain ⟨q, hq, hqe⟩ := List.mem_map.mp hp
      by_cases hqa : q.1 = a
      · rw [← hqe]
        simp only [hqa]
        simp only [beq_self_eq_true, if_true]
        rw [← hqa]
        exact hlt q hq
      · rw [← hqe]
        simp [hqa]
        exact hlt q hq
    · intro p hp
      obtain ⟨q, hq, hqe⟩ := List.mem_map.mp hp
      by_cases hqa : q.1 = a
      · rw [← hqe]
        simp [hqa]
        exact wf_setField k v (hobj q hq)
      · rw [← hqe]
        simp [hqa]
        exact hobj q hq
  · rw [if_neg ha]
    exact ⟨hnd, hlt, hobj⟩

lemma plain_getObj {h : Heap} (hp : h.plain) (a : Nat) : (h.getObj a).plain := by
  unfold Heap.getObj
  cases hfind : h.objs.find? (fun p => p.1 == a) with
  | none =>
      refine ⟨?_, ?_, ?_⟩ <;> (intro p hpm; cases hpm)
  | some p => exact hp p (List.mem_of_find?_eq_some hfind)

lemma propRead_plain_get {h : Heap} (hp : h.plain) (v : JSVal) :
    propRead h v "get" = JSVal.undef := by
  cases v with
  | ref a =>
      simp only [propRead]
      apply fieldVal_of_forall_ne
      intro p hpm
      exact ((plain_getObj hp a).1 p hpm).1
  | undef => rfl
  | null => rfl
  | bool b => rfl
  | num n => rfl
  | str s => rfl
  | fn => rfl

lemma propRead_plain_set {h : Heap} (hp : h.plain) (v : JSVal) :
    propRead h v "set" = JSVal.undef := by
  cases v with
  | ref a =>
      simp only [propRead]
      apply fieldVal_of_forall_ne
      intro p hpm
      exact ((plain_getObj hp a).1 p hpm).2.1
  | undef => rfl
  | null => rfl
  | bool b => rfl
  | num n => rfl
  | str s => rfl
  | fn => rfl

lemma propRead_plain_getters {h : Heap} (hp : h.plain) (v : JSVal) :
    propRead h v "_getters" = JSVal.undef := by
  cases v with
  | ref a =>
      simp only [propRead]
      apply fieldVal_of_forall_ne
      intro p hpm
      exact ((plain_getObj hp a).1 p hpm).2.2
  | undef => rfl
  | null => rfl
  | bool b => rfl
  | num n => rfl
  | str s => rfl
  | fn => rfl

lemma getStep_plain {h : Heap} (hp : h.plain) (tv nx : JSVal) (part : String)
    (hnx : nx.truthy = true) :
    getStep h tv nx part = some (propRead h nx part) := by
  unfold getStep
  rw [propReadE_eq_some _ hnx, propRead_plain_getters hp nx]
  simp [JSVal.truthy, propRead_plain_get hp nx]

lemma getLoopSegs_chain {h : Heap} (hp : h.plain) (tv : JSVal) :
    ∀ (mids : List String) (nx w : JSVal) (q : String) (qs : List String),
      stepsTo h nx mids = some w → w.truthy = true →
      (∀ x ∈ mids, x ≠ "") → q ≠ "" →
      getLoopSegs h tv nx (mids ++ q :: qs) = getLoop h tv w q qs := by
  intro mids
  induction mids with
  | nil =>
      intro nx w q qs hsteps _ _ _
      simp only [stepsTo] at hsteps
      cases hsteps
      rfl
  | cons m ms ih =>
      intro nx w q qs hsteps hwt hne hq
      simp only [stepsTo] at hsteps
      by_cases hnx : nx.truthy = true
      · rw [if_pos hnx] at hsteps
        simp only [List.cons_append, getLoopSegs]
        cases ms with
        | nil =>
            simp only [stepsTo] at hsteps
            cases hsteps
            simp only [List.nil_append, getLoop, getStep_plain hp tv nx m hnx]
            simp [hwt, hq]
        | cons m2 ms2 =>
            simp only [stepsTo] at hsteps
            by_cases hn1 : (propRead h nx m).truthy = true
            · rw [if_pos hn1] at hsteps
              have hm2 : m2 ≠ "" := hne m2 (by simp)
              simp only [List.cons_append, getLoop, getStep_plain hp tv nx m hnx]
              rw [if_pos hn1, if_neg hm2]
              have := ih (propRead h nx m) w q qs
                (by simp only [stepsTo]; rw [if_pos hn1]; exact hsteps)
                hwt (by intro x hx; exact hne x (by simp [hx])) hq
              simpa only [List.cons_append, getLoopSegs] using this
            · rw [if_neg hn1] at hsteps
              cases hsteps
      · rw [if_neg hnx] at hsteps
        cases hsteps

lemma setLoopSegs_chain {h : Heap} (hp : h.plain) (base : JSVal) (cr : Bool)
    (lastS : String) (t : Nat) (hl : lastS ≠ "") :
    ∀ (mids : List String) (nx : JSVal),
      refChain h nx mids = some (JSVal.ref t) →
      (∀ x ∈ mids, x ≠ "") →
      setLoopSegs h base cr nx (mids ++ [lastS])
        = some (h, SetStage.finish (JSVal.ref t) lastS ((h.getObj t).fieldVal lastS)) := by
  intro mids
  induction mids with
  | nil =>
      intro nx hchain _
      simp only [refChain] at hchain
      cases hchain
      simp only [List.nil_append, setLoopSegs, setLoop]
      rw [propReadE_eq_some _ (by rfl), propRead_plain_get hp]
      simp [JSVal.truthy, propRead]
  | cons m ms ih =>
      intro nx hchain hne
      simp only [refChain] at hchain
      cases hpr : propRead h nx m with
      | ref a =>
          rw [hpr] at hchain
          simp only at hchain
          have hnx : nx.truthy = true := by
            cases nx <;> simp [propRead, JSVal.truthy] at hpr ⊢
          simp only [List.cons_append, setLoopSegs]
          cases ms with
          | nil =>
              simp only [List.nil_append, setLoop]
              rw [show (!(nx == base) && (propRead h nx "set").truthy) = false by
                    rw [propRead_plain_set hp]
                    simp [JSVal.truthy]]
              rw [show (!(nx == base) && (propRead h nx "get").truthy) = false by
                    rw [propRead_plain_get hp]
                    simp [JSVal.truthy]]
              simp only [Bool.false_eq_true, if_false]
              simp only [setStep]
              rw [propReadE_eq_some _ hnx, hpr]
              simp only [JSVal.truthy, if_true]
              rw [if_neg hl]
              have := ih (JSVal.ref a) hchain (by intro x hx; cases hx)
              simpa only [List.nil_append, setLoopSegs] using this
          | cons m2 ms2 =>
              simp only [List.cons_append, setLoop]
              rw [show (!(nx == base) && (propRead h nx "set").truthy) = false by
                    rw [propRead_plain_set hp]
                    simp [JSVal.truthy]]
              rw [show (!(nx == base) && (propRead h nx "get").truthy) = false by
                    rw [propRead_plain_get hp]
                    simp [JSVal.truthy]]
              simp only [Bool.false_eq_true, if_false]
              simp only [setStep]
              rw [propReadE_eq_some _ hnx, hpr]
              simp only [JSVal.truthy, if_true]
              have hm2 : m2 ≠ "" := hne m2 (by simp)
              rw [if_neg hm2]
              have := ih (JSVal.ref a) hchain (by intro x hx; exact hne x (by simp [hx]))
              simpa only [List.cons_append, setLoopSegs] using this
      | undef => rw [hpr] at hchain; cases hchain
      | null => rw [hpr] at hchain; cases hchain
      | bool b => rw [hpr] at hchain; cases hchain
      | num n => rw [hpr] at hchain; cases hchain
      | str s => rw [hpr] at hchain; cases hchain
      | fn => rw [hpr] at hchain; cases hchain

lemma refChain_writeField {h : Heap} (a : Nat) (k : String) (v : JSVal) :
    ∀ (mids : List String) (nx : JSVal), k ∉ mids →
      refChain (h.writeField a k v) nx mids = refChain h nx mids := by
  intro mids
  induction mids with
  | nil =>
      intro nx _
      rfl
  | cons m ms ih =>
      intro nx hk
      have hmk : m ≠ k := by
        intro he
        exact hk (by simp [he])
      simp only [refChain]
      rw [propRead_writeField_ne h a k m v nx hmk]
      cases propRead h nx m with
      | ref b => exact ih (JSVal.ref b) (by intro hm; exact hk (by simp [hm]))
      | undef => rfl
      | null => rfl
      | bool b => rfl
      | num n => rfl
      | str s => rfl
      | fn => rfl

lemma plain_setField {o : Obj} (hp : o.plain) {k : String} {v : JSVal}
    (hk1 : k ≠ "get") (hk2 : k ≠ "set") (hk3 : k ≠ "_getters") (hk4 : k ≠ "notify")
    (hv : v ≠ JSVal.fn) : (o.setField k v).plain := by
  obtain ⟨hc, hf, hn⟩ := hp
  unfold Obj.setField
  by_cases hk : o.hasKey k
  · rw [if_pos hk]
    refine ⟨?_, ?_, ?_⟩ <;> intro p hpm <;>
      obtain ⟨q, hq, hqe⟩ := List.mem_map.mp hpm
    · by_cases hqa : q.1 = k
      · rw [← hqe]
        simp [hqa]
        exact ⟨hk1, hk2, hk3⟩
      · rw [← hqe]
        simp [hqa]
        exact hc q hq
    · by_cases hqa : q.1 = k
      · rw [← hqe]
        simp [hqa]
        intro hvf
        exact absurd hvf hv
      · rw [← hqe]
        simp [hqa]
        exact hf q hq
    · by_cases hqa : q.1 = k
      · rw [← hqe]
        simp [hqa]
        intro hkn
        exact absurd hkn hk4
      · rw [← hqe]
        simp [hqa]
        exact hn q hq
  · rw [if_neg hk]
    refine ⟨?_, ?_, ?_⟩ <;> intro p hpm <;>
      rcases List.mem_append.mp hpm with hin | hin
    · exact hc p hin
    · have : p = (k, v) := by simpa using hin
      subst this
      exact ⟨hk1, hk2, hk3⟩
    · exact hf p hin
    · have : p = (k, v) := by simpa using hin
      subst this
      intro hvf
      exact absurd hvf hv
    · exact hn p hin
    · have : p = (k, v) := by simpa using hin
      subst this
      intro hkn
      exact absurd hkn hk4

lemma plain_writeField {h : Heap} (hp : h.plain) {a : Nat} {k : String} {v : JSVal}
    (hk1 : k ≠ "get") (hk2 : k ≠ "set") (hk3 : k ≠ "_getters") (hk4 : k ≠ "notify")
    (hv : v ≠ JSVal.fn) : (h.writeField a k v).plain := by
  unfold Heap.writeField
  by_cases ha : h.hasAddr a
  · rw [if_pos ha]
    intro p hpm
    obtain ⟨q, hq, hqe⟩ := List.mem_map.mp hpm
    by_cases hqa : q.1 = a
    · rw [← hqe]
      simp [hqa]
      exact plain_setField (hp q hq) hk1 hk2 hk3 hk4 hv
    · rw [← hqe]
      simp [hqa]
      exact hp q hq
  · rw [if_neg ha]
    exact hp

/-- C3: `assign(O, "a.b.c", 5)` on the empty root `O = {}` with default
options auto-vivifies the missing intermediates: afterwards `O.a.b.c === 5`,
`O.a` and `O.a.b` are newly created objects each holding only the next
segment's key, no notify fires, and the call returns `O` itself. -/
theorem c3_setPath_autovivify :
    setPath emptyRootHeap (JSVal.ref 0) (JSVal.str "a.b.c") (JSVal.num 5)
      (SetOpts.prim JSVal.undef)
      = some ⟨⟨[(0, ⟨[("a", JSVal.ref 1)]⟩), (1, ⟨[("b", JSVal.ref 2)]⟩),
                (2, ⟨[("c", JSVal.num 5)]⟩)], 3⟩, [], JSVal.ref 0⟩ := by
  rfl

/-- C4: `assign(O, "a.b.c", 5, {create: false})` on the empty root `O = {}`
performs no assignment: the heap is left exactly as it was (no key `a`
added), no notify fires, and the call returns `O`. -/
theorem c4_setPath_no_create :
    setPath emptyRootHeap (JSVal.ref 0) (JSVal.str "a.b.c") (JSVal.num 5)
      (SetOpts.hash ⟨some (JSVal.bool false), Option.none, Option.none, Option.none⟩)
      = some ⟨emptyRootHeap, [], JSVal.ref 0⟩ := by
  rfl

/-- C5 counterexample: on `O = {a: 0}`, the intermediate value of path
`"a.b"` is the falsy number `0`, and `resolve` returns that `0` — not
`undefined` as the claim states for every falsy intermediate. -/
theorem c5_counterexample :
    getPath c5CexHeap (JSVal.ref 0) (JSVal.str "a.b") = some (JSVal.num 0) ∧
    some (JSVal.num 0) ≠ (some JSVal.undef : Option JSVal) := by
  refine ⟨by rfl, by decide⟩

/-- C2 counterexample: with `O = {a: O, notify}` (so every intermediate of
`"a.a"` exists on `O`), `u = {notify}` and `V = u`, calling
`assign(O, "a.a", u)` twice under default options is not idempotent: the
first call rewires `O.a` to `u` and notifies once, but the second call walks
through the freshly written `u`, mutates `u.a` and invokes notify again, so
the object graph after the second call differs from the graph after the
first and notify fired on the second call as well. -/
theorem c2_counterexample :
    setPath c2CexHeap (JSVal.ref 0) (JSVal.str "a.a") (JSVal.ref 1)
        (SetOpts.prim JSVal.undef)
      = some ⟨c2CexHeap1, [⟨JSVal.ref 0, "a", JSVal.ref 0, JSVal.ref 1⟩], JSVal.ref 0⟩ ∧
    setPath c2CexHeap1 (JSVal.ref 0) (JSVal.str "a.a") (JSVal.ref 1)
        (SetOpts.prim JSVal.undef)
      = some ⟨c2CexHeap2, [⟨JSVal.ref 1, "a", JSVal.undef, JSVal.ref 1⟩], JSVal.ref 0⟩ ∧
    c2CexHeap2 ≠ c2CexHeap1 := by
  refine ⟨by rfl, by rfl, by decide⟩

lemma foldl_bindingOp_live :
    ∀ (ds : List Nat) (acc : List BEntry),
      List.foldl (fun (o : BOwner) (d : Nat) => (o.bindingOp d).1) ⟨some acc, true⟩ ds
        = ⟨some (acc ++ ds.map (fun d => BEntry.live ⟨d, false⟩)), true⟩ := by
  intro ds
  induction ds with
  | nil =>
      intro acc
      simp
  | cons d ds ih =>
      intro acc
      rw [List.foldl_cons]
      have hstep : (BOwner.bindingOp ⟨some acc, true⟩ d).1
          = (⟨some (acc ++ [BEntry.live ⟨d, false⟩]), true⟩ : BOwner) := rfl
      rw [hstep, ih]
      simp

/-- C6: an owner holding `N` queued raw binding declarations and not yet
initialized has, after the `constructed` transition, exactly `N` live
`Binding` instances, one per declaration, in declaration order — its
bindings list holds only live instances, no raw hashes. -/
theorem c6_constructed_instantiates_all_queued :
    ∀ ds : List Nat,
      BOwner.constructedOp ⟨some (ds.map BEntry.raw), false⟩
        = ⟨some (ds.map (fun d => BEntry.live ⟨d, false⟩)), true⟩ := by
  intro ds
  unfold BOwner.constructedOp
  simp only
  rw [List.foldl_map]
  have hfun : (fun (acc : BOwner) (d : Nat) => (acc.bindingOp (BEntry.raw d).desc).1)
      = fun (acc : BOwner) (d : Nat) => (acc.bindingOp d).1 := rfl
  rw [hfun, foldl_bindingOp_live]
  simp

lemma destroySeq_all_live :
    ∀ (bs : List BEntry) (o : BOwner) (log : List Binding),
      (∀ e ∈ bs, ∃ b, e = BEntry.live b) →
      ∃ bnew, destroySeq o log bs
          = some ({ o with bindings := bnew },
                  log ++ bs.map (fun e => Binding.mk e.desc true)) := by
  intro bs
  induction bs with
  | nil =>
      intro o log _
      refine ⟨o.bindings, ?_⟩
      simp [destroySeq]
  | cons e rest ih =>
      intro o log hlive
      obtain ⟨b, hb⟩ := hlive e (by simp)
      subst hb
      simp only [destroySeq]
      obtain ⟨bnew, hnew⟩ :=
        ih { o with bindings := o.bindings.map (fun l => removeFirst l (BEntry.live b)) }
          (log ++ [⟨b.descriptor, true⟩]) (fun x hx => hlive x (by simp [hx]))
      refine ⟨bnew, ?_⟩
      rw [hnew]
      simp [BEntry.desc]

/-- C7: running the destroy protocol on an owner whose bindings list holds
any number of live `Binding` instances destroys every one of them (each
appears, marked destroyed, in the destruction log, in order) and nulls the
owner's bindings list, so no live binding remains on the owner. -/
theorem c7_destroy_destroys_all_bindings (o : BOwner) (bs : List BEntry)
    (hb : o.bindings = some bs)
    (hlive : ∀ e ∈ bs, ∃ b, e = BEntry.live b) :
    o.destroyOp
      = some (⟨Option.none, o.inited⟩, bs.map (fun e => Binding.mk e.desc true)) := by
  unfold BOwner.destroyOp
  rw [hb]
  dsimp only
  by_cases hlen : bs.length = 0
  · have hnil : bs = [] := List.length_eq_zero.mp hlen
    subst hnil
    simp
  · rw [if_pos hlen]
    unfold BOwner.clearBindingsOp
    rw [hb]
    dsimp only
    obtain ⟨bnew, hseq⟩ := destroySeq_all_live bs o [] hlive
    rw [hseq]
    simp

lemma splitSegs_empty : splitSegs "" = [""] := by
  rfl

/-- C1: on a plain object graph, for every object `O` and dotted path whose
walk reaches an intermediate segment that is absent (reads `undefined`),
`enyo.getPath` raises no error and returns `undefined` — the walk stops at
the missing segment instead of dereferencing it.  The hypotheses say: the
path splits as `mids ++ m :: rest` with `m` an intermediate (`rest ≠ []`),
the walk of `mids` reaches a truthy value `w`, and segment `m` is absent on
`w`. -/
theorem c1_getPath_missing_intermediate (h : Heap) (root : JSVal) (s : String)
    (mids : List String) (m : String) (rest : List String) (w : JSVal)
    (hp : h.plain) (hs : stripDots s = s)
    (hsp : splitSegs s = mids ++ m :: rest)
    (hrest : rest ≠ [])
    (hne : ∀ x ∈ mids ++ m :: rest, x ≠ "")
    (hw : stepsTo h root mids = some w) (hwt : w.truthy = true)
    (hmiss : propRead h w m = JSVal.undef) :
    getPath h root (JSVal.str s) = some JSVal.undef := by
  have hmne : m ≠ "" := hne m (by simp)
  have hsne : s ≠ "" := by
    intro he
    subst he
    rw [splitSegs_empty] at hsp
    have hmem : m ∈ ([""] : List String) := by
      rw [hsp]
      simp
    simp at hmem
    exact hmne hmem
  have hend : getLoop h root w m rest = some JSVal.undef := by
    cases rest with
    | nil => exact absurd rfl hrest
    | cons r rs =>
        simp only [getLoop, getStep_plain hp root w m hwt, hmiss]
        simp [JSVal.truthy]
  unfold getPath
  dsimp only
  rw [if_neg hsne, hs, if_neg hsne, hsp]
  cases mids with
  | nil =>
      simp only [stepsTo] at hw
      cases hw
      simpa only [List.nil_append, getLoopSegs] using hend
  | cons m0 ms =>
      rw [getLoopSegs_chain hp root (m0 :: ms) root w m rest hw hwt
          (fun x hx => hne x (List.mem_append.mpr (Or.inl hx))) hmne]
      exact hend

/-- C5 (amended): on a plain object graph, the walk of `enyo.getPath` stops
the moment the current value is falsy and returns that falsy intermediate
value itself — `undefined` exactly when the missing segment reads
`undefined`, but `null`, `0`, `false` or `""` when that is what the
intermediate holds — and raises no error; a final segment is returned as
read, its absence yielding `undefined`.  The hypotheses say: the path splits
as `mids ++ m :: rest`, the walk of `mids` reaches a truthy value `w`, and
either `m` is the final segment or its value on `w` is falsy. -/
theorem c5_amended_getPath_falsy_stop (h : Heap) (root : JSVal) (s : String)
    (mids : List String) (m : String) (rest : List String) (w : JSVal)
    (hp : h.plain) (hs : stripDots s = s)
    (hsp : splitSegs s = mids ++ m :: rest)
    (hne : ∀ x ∈ mids ++ m :: rest, x ≠ "")
    (hw : stepsTo h root mids = some w) (hwt : w.truthy = true)
    (hmiss : rest = [] ∨ (propRead h w m).truthy = false) :
    getPath h root (JSVal.str s) = some (propRead h w m) := by
  have hmne : m ≠ "" := hne m (by simp)
  have hsne : s ≠ "" := by
    intro he
    subst he
    rw [splitSegs_empty] at hsp
    have hmem : m ∈ ([""] : List String) := by
      rw [hsp]
      simp
    simp at hmem
    exact hmne hmem
  have hend : getLoop h root w m rest = some (propRead h w m) := by
    cases rest with
    | nil => simp only [getLoop, getStep_plain hp root w m hwt]
    | cons r rs =>
        rcases hmiss with he | hf
        · cases he
        · simp only [getLoop, getStep_plain hp root w m hwt]
          rw [hf]
          simp
  unfold getPath
  dsimp only
  rw [if_neg hsne, hs, if_neg hsne, hsp]
  cases mids with
  | nil =>
      simp only [stepsTo] at hw
      cases hw
      simpa only [List.nil_append, getLoopSegs] using hend
  | cons m0 ms =>
      rw [getLoopSegs_chain hp root (m0 :: ms) root w m rest hw hwt
          (fun x hx => hne x (List.mem_append.mpr (Or.inl hx))) hmne]
      exact hend

/-- C8: for every scope object and every `method` argument that is neither a
function nor the name of a function-valued property of the scope, both
`enyo.bind` and `enyo.bindSafely` throw synchronously — neither ever
returns a closure or fails silently. -/
theorem c8_bind_non_function_throws (h : Heap) (a : Nat) (m : JSVal)
    (hm : m ≠ JSVal.fn)
    (hname : ∀ s : String, m = JSVal.str s → propRead h (JSVal.ref a) s ≠ JSVal.fn) :
    enyoBind h (JSVal.ref a) m = BindResult.thrown ∧
    enyoBindSafely h (JSVal.ref a) m = BindResult.thrown := by
  constructor
  · unfold enyoBind
    by_cases hmt : m.truthy = true
    · rw [if_pos hmt, if_pos hmt]
      cases m with
      | str s =>
          have hsc : (JSVal.ref a).truthy = true := rfl
          dsimp only
          rw [if_pos hsc]
          by_cases hv : (propRead h (JSVal.ref a) s).truthy = true
          · rw [if_pos hv, if_neg (hname s rfl)]
          · rw [if_neg (by simpa using hv)]
      | fn => exact absurd rfl hm
      | undef => rfl
      | null => rfl
      | bool b => rfl
      | num n => rfl
      | ref b => rfl
    · rw [if_neg (by simpa using hmt), if_neg (by simpa using hmt)]
  · unfold enyoBindSafely
    cases m with
    | str s =>
        have he : propReadE h (JSVal.ref a) s = some (propRead h (JSVal.ref a) s) := rfl
        dsimp only
        rw [he]
        dsimp only
        by_cases hv : (propRead h (JSVal.ref a) s).truthy = true
        · rw [if_pos hv, if_neg (hname s rfl)]
        · rw [if_neg (by simpa using hv)]
    | fn => exact absurd rfl hm
    | undef => rfl
    | null => rfl
    | bool b => rfl
    | num n => rfl
    | ref b => rfl

/-- C9: a non-object third argument to `setPath` acts as a positional
`force` flag: when truthy the call behaves exactly as with options
`{force: true}` (write proceeds with default create/silent, notify fires
even on an unchanged value); when falsy it behaves exactly as with an empty
options hash, leaving every default in place. -/
theorem c9_setPath_positional_force (h : Heap) (root path v ov : JSVal) :
    (ov.truthy = true →
      setPath h root path v (SetOpts.prim ov)
        = setPath h root path v
            (SetOpts.hash ⟨Option.none, Option.none, some (JSVal.bool true), Option.none⟩)) ∧
    (ov.truthy = false →
      setPath h root path v (SetOpts.prim ov)
        = setPath h root path v
            (SetOpts.hash ⟨Option.none, Option.none, Option.none, Option.none⟩)) := by
  have hc : SetOpts.createB (SetOpts.prim ov) = true := rfl
  have hs : SetOpts.silentB (SetOpts.prim ov) = false := rfl
  have hcmp : SetOpts.comp (SetOpts.prim ov) = Option.none := rfl
  constructor
  · intro hov
    have hf : SetOpts.forceB (SetOpts.prim ov) = true := by
      simp [SetOpts.forceB, hov]
    have hc2 : SetOpts.createB
        (SetOpts.hash ⟨Option.none, Option.none, some (JSVal.bool true), Option.none⟩)
        = true := rfl
    have hs2 : SetOpts.silentB
        (SetOpts.hash ⟨Option.none, Option.none, some (JSVal.bool true), Option.none⟩)
        = false := rfl
    have hcmp2 : SetOpts.comp
        (SetOpts.hash ⟨Option.none, Option.none, some (JSVal.bool true), Option.none⟩)
        = Option.none := rfl
    have hf2 : SetOpts.forceB
        (SetOpts.hash ⟨Option.none, Option.none, some (JSVal.bool true), Option.none⟩)
        = true := rfl
    unfold setPath
    rw [hc, hs, hcmp, hf, hc2, hs2, hcmp2, hf2]
  · intro hov
    have hf : SetOpts.forceB (SetOpts.prim ov) = false := by
      simp [SetOpts.forceB, hov]
    have hc2 : SetOpts.createB
        (SetOpts.hash ⟨Option.none, Option.none, Option.none, Option.none⟩) = true := rfl
    have hs2 : SetOpts.silentB
        (SetOpts.hash ⟨Option.none, Option.none, Option.none, Option.none⟩) = false := rfl
    have hcmp2 : SetOpts.comp
        (SetOpts.hash ⟨Option.none, Option.none, Option.none, Option.none⟩)
        = Option.none := rfl
    have hf2 : SetOpts.forceB
        (SetOpts.hash ⟨Option.none, Option.none, Option.none, Option.none⟩) = false := rfl
    unfold setPath
    rw [hc, hs, hcmp, hf, hc2, hs2, hcmp2, hf2]

/-- C10: `enyo.getPath` applied to a falsy path that is neither `null` nor
`undefined` (the empty string, `0`, `false`) returns that argument itself
without touching the object graph, while a non-empty path made only of dots
is stripped to the empty string and yields `undefined`; no error is raised
and the receiver is never dereferenced (the results do not depend on the
heap or the receiver at all). -/
theorem c10_getPath_falsy_and_dots_paths (h : Heap) (root : JSVal) (s : String) :
    (getPath h root (JSVal.str "") = some (JSVal.str "") ∧
     getPath h root (JSVal.num 0) = some (JSVal.num 0) ∧
     getPath h root (JSVal.bool false) = some (JSVal.bool false)) ∧
    (s ≠ "" → (∀ c ∈ s.toList, c = '.') →
      getPath h root (JSVal.str s) = some JSVal.undef) := by
  constructor
  · exact ⟨rfl, rfl, rfl⟩
  · intro hs hdots
    have hstrip : stripDots s = "" := by
      unfold stripDots
      have hnil : s.toList.dropWhile (fun c => c == '.') = [] := by
        apply List.dropWhile_eq_nil_iff.mpr
        intro c hc
        simp [hdots c hc]
      rw [hnil]
    unfold getPath
    dsimp only
    rw [if_neg hs, hstrip]
    rfl

lemma setPath_prim_default_plain_chain
    {h : Heap} {root : JSVal} {s : String} {mids : List String} {lastS : String}
    {t : Nat} (v : JSVal)
    (hp : h.plain) (hs : stripDots s = s) (hsp : splitSegs s = mids ++ [lastS])
    (hne : ∀ x ∈ mids ++ [lastS], x ≠ "")
    (hchain : refChain h root mids = some (JSVal.ref t)) :
    setPath h root (JSVal.str s) v (SetOpts.prim JSVal.undef)
      = (let was := (h.getObj t).fieldVal lastS
         let h2 := h.writeField t lastS v
         let nv := propRead h2 (JSVal.ref t) "notify"
         if nv.truthy && (if was = v then false else true) then
           if nv = JSVal.fn then
             some ⟨h2, [⟨JSVal.ref t, lastS, was, v⟩], root⟩
           else Option.none
         else some ⟨h2, [], root⟩) := by
  have hlast : lastS ≠ "" := hne lastS (by simp)
  have hsne : s ≠ "" := by
    intro he
    subst he
    rw [splitSegs_empty] at hsp
    have hmem : lastS ∈ ([""] : List String) := by
      rw [hsp]
      simp
    simp at hmem
    exact hlast hmem
  have htr : (JSVal.str s).truthy = true := by simp [JSVal.truthy, hsne]
  unfold setPath
  have hcond : (!(JSVal.str s).truthy) = false := by simp [htr]
  rw [hcond, if_neg Bool.false_ne_true]
  dsimp only
  rw [hs, if_neg hsne, hsp]
  rw [show SetOpts.createB (SetOpts.prim JSVal.undef) = true from rfl]
  rw [setLoopSegs_chain hp root true lastS t hlast mids root hchain
      (fun x hx => hne x (List.mem_append.mpr (Or.inl hx)))]
  dsimp only
  rw [propRead_plain_set hp]
  have hcond2 : (!(JSVal.ref t == root) && (JSVal.undef).truthy) = false := by
    simp [JSVal.truthy]
  rw [hcond2, if_neg Bool.false_ne_true]
  rw [show SetOpts.forceB (SetOpts.prim JSVal.undef) = false from rfl,
      show SetOpts.silentB (SetOpts.prim JSVal.undef) = false from rfl,
      show SetOpts.comp (SetOpts.prim JSVal.undef) = Option.none from rfl]
  dsimp only
  simp only [Bool.false_or, Bool.or_false, Bool.not_false, Bool.and_true, Bool.true_and]

lemma hasAddr_writeField (h : Heap) (a b : Nat) (k : String) (v : JSVal) :
    (h.writeField a k v).hasAddr b = h.hasAddr b := by
  unfold Heap.writeField
  by_cases ha : h.hasAddr a
  · rw [if_pos ha]
    unfold Heap.hasAddr
    rw [show (Heap.mk (h.objs.map (fun p => if p.1 == a then (a, p.2.setField k v) else p))
        h.nextAddr).objs = h.objs.map (fun p => if p.1 == a then (a, p.2.setField k v) else p)
      from rfl]
    rw [List.any_map]
    have hfun : ((fun p : Nat × Obj => p.1 == b)
          ∘ (fun p => if p.1 == a then (a, p.2.setField k v) else p))
        = fun p : Nat × Obj => p.1 == b := by
      funext q
      by_cases hq : q.1 = a
      · simp [hq]
      · simp [hq]
    rw [hfun]
  · rw [if_neg ha]

/-- C2 (amended): on a well-formed plain object graph, writing the same
value twice through `setPath` under default options is idempotent and
notifies exactly once (on the first call), PROVIDED the final segment's name
does not occur among the intermediate segments and does not collide with a
resolver capability name (`get`/`set`/`_getters`/`notify`), and the written
value is not itself a function — without the first proviso the terminal
write can relink the resolution chain (the written object aliasing into the
path), making the second call walk into different nodes, mutate them and
notify again, as the counterexample shows.  Hypotheses: the path splits as
`mids ++ [lastS]`, all intermediates resolve to heap objects ending at
address `t`, the target has a notify hook, and the prior value differs from
`v`. -/
theorem c2_amended_setPath_idempotent
    (h : Heap) (root : JSVal) (s : String) (mids : List String) (lastS : String)
    (t : Nat) (v : JSVal)
    (hwf : h.wf) (hp : h.plain)
    (hs : stripDots s = s) (hsp : splitSegs s = mids ++ [lastS])
    (hne : ∀ x ∈ mids ++ [lastS], x ≠ "")
    (hnm : lastS ∉ mids)
    (hl1 : lastS ≠ "get") (hl2 : lastS ≠ "set") (hl3 : lastS ≠ "_getters")
    (hl4 : lastS ≠ "notify") (hv : v ≠ JSVal.fn)
    (hchain : refChain h root mids = some (JSVal.ref t))
    (hnot : (h.getObj t).fieldVal "notify" = JSVal.fn)
    (hdiff : (h.getObj t).fieldVal lastS ≠ v) :
    setPath h root (JSVal.str s) v (SetOpts.prim JSVal.undef)
      = some ⟨h.writeField t lastS v,
              [⟨JSVal.ref t, lastS, (h.getObj t).fieldVal lastS, v⟩], root⟩ ∧
    setPath (h.writeField t lastS v) root (JSVal.str s) v (SetOpts.prim JSVal.undef)
      = some ⟨h.writeField t lastS v, [], root⟩ := by
  have ht : h.hasAddr t = true := by
    by_cases hna : h.hasAddr t = true
    · exact hna
    · exfalso
      have hfalse : h.hasAddr t = false := by simpa using hna
      rw [getObj_not_hasAddr hfalse] at hnot
      simp [Obj.fieldVal, List.find?] at hnot
  have hgs : (h.writeField t lastS v).getObj t = (h.getObj t).setField lastS v :=
    getObj_writeField_self lastS v ht
  have hnot2 : ((h.writeField t lastS v).getObj t).fieldVal "notify" = JSVal.fn := by
    rw [hgs, fieldVal_setField_ne _ _ _ _ (fun he => hl4 he.symm)]
    exact hnot
  constructor
  · rw [setPath_prim_default_plain_chain v hp hs hsp hne hchain]
    dsimp only
    have hnv : propRead (h.writeField t lastS v) (JSVal.ref t) "notify" = JSVal.fn := by
      simp only [propRead]
      exact hnot2
    rw [hnv, if_neg hdiff]
    simp [JSVal.truthy]
  · have hp2 : (h.writeField t lastS v).plain := plain_writeField hp hl1 hl2 hl3 hl4 hv
    have hch2 : refChain (h.writeField t lastS v) root mids = some (JSVal.ref t) := by
      rw [refChain_writeField t lastS v mids root hnm]
      exact hchain
    rw [setPath_prim_default_plain_chain v hp2 hs hsp hne hch2]
    dsimp only
    have hwas2 : ((h.writeField t lastS v).getObj t).fieldVal lastS = v := by
      rw [hgs, fieldVal_setField_self]
    have hkey2 : ((h.writeField t lastS v).getObj t).hasKey lastS = true := by
      rw [hgs]
      exact hasKey_setField_self _ _ _
    have hwf2 : (h.writeField t lastS v).wf := wf_writeField t lastS v hwf
    have hww : (h.writeField t lastS v).writeField t lastS v = h.writeField t lastS v :=
      writeField_id hwf2 hkey2 hwas2
    rw [hww, hwas2]
    simp

/-- Witness instantiating C1 on a concrete heap and path. -/
theorem c1_witness :
    getPath c1WitHeap (JSVal.ref 0) (JSVal.str "a.b.c") = some JSVal.undef :=
  c1_getPath_missing_intermediate c1WitHeap (JSVal.ref 0) "a.b.c" ["a"] "b" ["c"]
    (JSVal.ref 1) (by decide) (by decide) (by decide) (by decide) (by decide)
    (by decide) (by decide) (by decide)

/-- Witness instantiating the amended C5 statement: on `O = {a: 0}` the
falsy intermediate `0` is returned itself. -/
theorem c5_amended_witness :
    getPath c5CexHeap (JSVal.ref 0) (JSVal.str "a.b") = some (JSVal.num 0) :=
  c5_amended_getPath_falsy_stop c5CexHeap (JSVal.ref 0) "a.b" [] "a" ["b"]
    (JSVal.ref 0) (by decide) (by decide) (by decide) (by decide) (by decide)
    (by decide) (Or.inr (by decide))

/-- Witness instantiating the amended C2 statement: `assign(O, "x.y", 2)`
twice notifies once and leaves the graph unchanged on the second call. -/
theorem c2_amended_witness :
    (setPath c2WitHeap (JSVal.ref 0) (JSVal.str "x.y") (JSVal.num 2)
        (SetOpts.prim JSVal.undef)
      = some ⟨c2WitHeap.writeField 1 "y" (JSVal.num 2),
              [⟨JSVal.ref 1, "y", (c2WitHeap.getObj 1).fieldVal "y", JSVal.num 2⟩],
              JSVal.ref 0⟩) ∧
    (setPath (c2WitHeap.writeField 1 "y" (JSVal.num 2)) (JSVal.ref 0)
        (JSVal.str "x.y") (JSVal.num 2) (SetOpts.prim JSVal.undef)
      = some ⟨c2WitHeap.writeField 1 "y" (JSVal.num 2), [], JSVal.ref 0⟩) :=
  c2_amended_setPath_idempotent c2WitHeap (JSVal.ref 0) "x.y" ["x"] "y" 1
    (JSVal.num 2) (by decide) (by decide) (by decide) (by decide) (by decide)
    (by decide) (by decide) (by decide) (by decide) (by decide) (by decide)
    (by decide) (by decide) (by decide)

/-- Witness instantiating C7 on an owner with two live bindings. -/
theorem c7_witness :
    BOwner.destroyOp ⟨some [BEntry.live ⟨1, false⟩, BEntry.live ⟨2, false⟩], true⟩
      = some (⟨Option.none, true⟩, [⟨1, true⟩, ⟨2, true⟩]) :=
  c7_destroy_destroys_all_bindings
    ⟨some [BEntry.live ⟨1, false⟩, BEntry.live ⟨2, false⟩], true⟩
    [BEntry.live ⟨1, false⟩, BEntry.live ⟨2, false⟩] rfl
    (by intro e he
        rcases List.mem_cons.mp he with h1 | h1
        · exact ⟨⟨1, false⟩, h1⟩
        · rcases List.mem_cons.mp h1 with h2 | h2
          · exact ⟨⟨2, false⟩, h2⟩
          · cases h2)

/-- Witness instantiating C8: binding to the name of a non-function property
throws in both helpers. -/
theorem c8_witness :
    enyoBind c8WitHeap (JSVal.ref 0) (JSVal.str "m") = BindResult.thrown ∧
    enyoBindSafely c8WitHeap (JSVal.ref 0) (JSVal.str "m") = BindResult.thrown :=
  c8_bind_non_function_throws c8WitHeap 0 (JSVal.str "m") (by decide)
    (by intro s hs
        cases hs
        decide)

/-- Witness instantiating C9 at a truthy (`1`) and a falsy (`0`) positional
third argument. -/
theorem c9_witness :
    ((JSVal.num 1).truthy = true ∧
     setPath emptyRootHeap (JSVal.ref 0) (JSVal.str "a") (JSVal.num 7)
         (SetOpts.prim (JSVal.num 1))
       = setPath emptyRootHeap (JSVal.ref 0) (JSVal.str "a") (JSVal.num 7)
           (SetOpts.hash ⟨Option.none, Option.none, some (JSVal.bool true),
                          Option.none⟩)) ∧
    ((JSVal.num 0).truthy = false ∧
     setPath emptyRootHeap (JSVal.ref 0) (JSVal.str "a") (JSVal.num 7)
         (SetOpts.prim (JSVal.num 0))
       = setPath emptyRootHeap (JSVal.ref 0) (JSVal.str "a") (JSVal.num 7)
           (SetOpts.hash ⟨Option.none, Option.none, Option.none, Option.none⟩)) :=
  ⟨⟨by decide, (c9_setPath_positional_force emptyRootHeap (JSVal.ref 0)
      (JSVal.str "a") (JSVal.num 7) (JSVal.num 1)).1 (by decide)⟩,
   ⟨by decide, (c9_setPath_positional_force emptyRootHeap (JSVal.ref 0)
      (JSVal.str "a") (JSVal.num 7) (JSVal.num 0)).2 (by decide)⟩⟩

/-- Witness instantiating C10, with `"..."` as the dots-only path. -/
theorem c10_witness :
    (getPath emptyRootHeap (JSVal.ref 0) (JSVal.str "") = some (JSVal.str "") ∧
     getPath emptyRootHeap (JSVal.ref 0) (JSVal.num 0) = some (JSVal.num 0) ∧
     getPath emptyRootHeap (JSVal.ref 0) (JSVal.bool false)
       = some (JSVal.bool false)) ∧
    (("..." : String) ≠ "" ∧
     getPath emptyRootHeap (JSVal.ref 0) (JSVal.str "...") = some JSVal.undef) :=
  ⟨(c10_getPath_falsy_and_dots_paths emptyRootHeap (JSVal.ref 0) "...").1,
   ⟨by decide, (c10_getPath_falsy_and_dots_paths emptyRootHeap (JSVal.ref 0) "...").2
      (by decide) (by decide)⟩⟩
